import Mathlib

/-!
Verification of the dataset-dedupe-estimator repository (package de).

Shallow embedding of the synthetic table generator (src/de/synthetic.py),
the file-format policies (src/de/formats.py) and the format-comparison
pipeline (src/de/estimate.py), together with theorems settling the
specification claims.  Tables are modelled as lists of rows; the fractional
edit points are modelled as rationals; byte counts as naturals.
-/

namespace DE

/-- Python int() applied to a rational; every call site below passes a
nonnegative product, where truncation toward zero coincides with floor. -/
def pyInt (q : ℚ) : ℤ := ⌊q⌋

/-- Absolute row index int(point * len(table)) as computed by the
row-editing methods of DataGenerator in src/de/synthetic.py. -/
def idxN (n : ℕ) (q : ℚ) : ℕ := (pyInt (q * n)).toNat

/-- Model of pyarrow Table.slice(offset, length) on a table given as a list
of rows; pyarrow clamps the slice to the table bounds, and every use below
is in-bounds under the edit-plan validity hypotheses. -/
def sliceL (t : List α) (off len : ℕ) : List α := (t.drop off).take len

/-- Loop of DataGenerator.delete_rows: the pairs (start, end) are produced
by zip([0] + edit_points, edit_points + [1]); prev carries the start of the
current pair, and the final pair always has end = 1 (the branch on end == 1
keeps the whole tail slice, otherwise edit_size rows before the boundary
are dropped). -/
def deleteGo (t : List α) (n e : ℕ) : ℚ → List ℚ → List (List α)
  | prev, [] => [sliceL t (idxN n prev) (idxN n 1 - idxN n prev)]
  | prev, p :: ps =>
      (if p = 1 then sliceL t (idxN n prev) (idxN n p - idxN n prev)
       else sliceL t (idxN n prev) (idxN n p - idxN n prev - e)) :: deleteGo t n e p ps

/-- DataGenerator.delete_rows from src/de/synthetic.py: concatenation
(pa.concat_tables + combine_chunks preserves and flattens rows) of the kept
slices. -/
def delete_rows (t : List α) (edit_points : List ℚ) (edit_size : ℕ) : List α :=
  (deleteGo t t.length edit_size 0 edit_points).flatten

/-- Loop of DataGenerator.insert_rows: each pair contributes its slice and,
when end is not the final boundary 1, edit_size freshly generated rows. -/
def insertGo (gen : ℕ → List α) (t : List α) (n e : ℕ) : ℚ → List ℚ → List (List α)
  | prev, [] => [sliceL t (idxN n prev) (idxN n 1 - idxN n prev)]
  | prev, p :: ps =>
      sliceL t (idxN n prev) (idxN n p - idxN n prev) ::
        (if p = 1 then insertGo gen t n e p ps else gen e :: insertGo gen t n e p ps)

/-- DataGenerator.insert_rows from src/de/synthetic.py; gen models
self.generate_table of the concrete generator subclass. -/
def insert_rows (gen : ℕ → List α) (t : List α) (edit_points : List ℚ)
    (edit_size : ℕ) : List α :=
  (insertGo gen t t.length edit_size 0 edit_points).flatten

/-- DataGenerator.append_rows from src/de/synthetic.py: concatenates
int(ratio * len(table)) freshly generated rows. -/
def append_rows (gen : ℕ → List α) (t : List α) (ratio : ℚ) : List α :=
  t ++ gen (idxN t.length ratio)

/-- Row of a table as seen through the pandas round-trip in update_rows:
one cell per column name. -/
def Row (V : Type) := String → V

/-- Reading a cell, as edits_df.at[edit_idx, column]; every read in
update_rows is in range when the generator honours the requested length. -/
def getCell [Inhabited V] (t : List (Row V)) (i : ℕ) (c : String) : V :=
  match t[i]? with
  | some r => r c
  | none => default

/-- Writing a cell, as df.at[idx, column] = value; all writes in
update_rows target a row index below the length (edit points lie in
[0, 1)), where pandas .at overwrites in place. -/
def setCell (t : List (Row V)) (i : ℕ) (c : String) (v : V) : List (Row V) :=
  match t[i]? with
  | some r => t.set i (fun c2 => if c2 = c then v else r c2)
  | none => t

/-- DataGenerator.update_rows from src/de/synthetic.py.  The pandas
round-trip to_pandas / from_pandas preserves the rows; the triple loop is
the source's: for (i, place) in enumerate(edit_points), for column in
columns, for j in range(edit_size), write
df.at[int(place * len(df)), column] = edits_df.at[i * edit_size + j, column].
Note that the written row index does not depend on j. -/
def update_rows [Inhabited V] (gen : ℕ → List (Row V)) (t : List (Row V))
    (edit_points : List ℚ) (columns : List String) (edit_size : ℕ) : List (Row V) :=
  let edits := gen (edit_points.length * edit_size)
  edit_points.enum.foldl (fun df ip =>
    let idx := idxN df.length ip.2
    columns.foldl (fun df column =>
      (List.range edit_size).foldl (fun df j =>
        setCell df idx column (getCell edits (ip.1 * edit_size + j) column)) df) df) t

/-- Strict increase of the fractional edit points. -/
def strictIncB : List ℚ → Bool
  | [] => true
  | [_] => true
  | p :: q :: r => decide (p < q) && strictIncB (q :: r)

/-- Containment of the edit points in [0, 1). -/
def boundsB (ps : List ℚ) : Bool := ps.all fun p => decide (0 ≤ p) && decide (p < 1)

/-- Disjointness of the absolute-index clusters: each cluster of edit_size
rows ends at its boundary and must start at or after the previous boundary
(the accumulator a is the previous boundary index, initially 0). -/
def chainB (n e : ℕ) : ℕ → List ℚ → Bool
  | _, [] => true
  | a, p :: ps => (decide (a + e ≤ idxN n p)) && chainB n e (idxN n p) ps

/-- Validity of an edit plan over a table of n rows (claim C2): strictly
increasing points in [0,1), non-overlapping clusters at absolute indices,
and e * k < n. -/
def validPlan (n : ℕ) (ps : List ℚ) (e : ℕ) : Prop :=
  strictIncB ps = true ∧ boundsB ps = true ∧ chainB n e 0 ps = true ∧
    e * ps.length < n

theorem idxN_zero (n : ℕ) : idxN n 0 = 0 := by
  simp [idxN, pyInt]

theorem idxN_one (n : ℕ) : idxN n 1 = n := by
  simp [idxN, pyInt]

theorem idxN_le_of_lt_one {q : ℚ} (n : ℕ) (hq : q < 1) : idxN n q ≤ n := by
  have h1 : q * (n : ℚ) ≤ (n : ℚ) := by
    have hn : (0 : ℚ) ≤ (n : ℚ) := by positivity
    nlinarith
  have h2 : ⌊q * (n : ℚ)⌋ ≤ (n : ℤ) := by
    calc ⌊q * (n : ℚ)⌋ ≤ ⌊(n : ℚ)⌋ := Int.floor_le_floor h1
    _ = (n : ℤ) := by exact_mod_cast Int.floor_natCast n
  simpa [idxN, pyInt] using Int.toNat_le.mpr h2

theorem sliceL_length (t : List α) (off len : ℕ) :
    (sliceL t off len).length = min len (t.length - off) := by
  simp [sliceL]

theorem sliceL_zero_full (t : List α) : sliceL t 0 t.length = t := by
  simp [sliceL]

theorem boundsB_cons {p : ℚ} {ps : List ℚ} :
    boundsB (p :: ps) = true ↔ (0 ≤ p ∧ p < 1) ∧ boundsB ps = true := by
  simp [boundsB]

theorem chainB_cons {n e a : ℕ} {p : ℚ} {ps : List ℚ} :
    chainB n e a (p :: ps) = true ↔
      a + e ≤ idxN n p ∧ chainB n e (idxN n p) ps = true := by
  simp [chainB]

theorem deleteGo_len (t : List α) (e : ℕ) :
    ∀ (ps : List ℚ) (prev : ℚ),
      boundsB ps = true →
      chainB t.length e (idxN t.length prev) ps = true →
      idxN t.length prev ≤ t.length →
      ((deleteGo t t.length e prev ps).flatten).length + idxN t.length prev
        + e * ps.length = t.length := by
  intro ps
  induction ps with
  | nil =>
    intro prev _ _ hle
    simp [deleteGo, sliceL_length, idxN_one]
    omega
  | cons p ps ih =>
    intro prev hb hc hle
    obtain ⟨⟨_, hp1⟩, hb'⟩ := boundsB_cons.mp hb
    obtain ⟨hape, hc'⟩ := chainB_cons.mp hc
    have hbn : idxN t.length p ≤ t.length := idxN_le_of_lt_one t.length hp1
    have hne : p ≠ 1 := ne_of_lt hp1
    have hrec := ih p hb' hc' hbn
    simp only [deleteGo, if_neg hne, List.flatten_cons, List.length_append,
      sliceL_length, List.length_cons, Nat.mul_succ]
    omega

theorem insertGo_len (gen : ℕ → List α) (t : List α) (e : ℕ)
    (hgen : ∀ m, (gen m).length = m) :
    ∀ (ps : List ℚ) (prev : ℚ),
      boundsB ps = true →
      chainB t.length e (idxN t.length prev) ps = true →
      idxN t.length prev ≤ t.length →
      ((insertGo gen t t.length e prev ps).flatten).length + idxN t.length prev
        = t.length + e * ps.length := by
  intro ps
  induction ps with
  | nil =>
    intro prev _ _ hle
    simp [insertGo, sliceL_length, idxN_one]
    omega
  | cons p ps ih =>
    intro prev hb hc hle
    obtain ⟨⟨_, hp1⟩, hb'⟩ := boundsB_cons.mp hb
    obtain ⟨hape, hc'⟩ := chainB_cons.mp hc
    have hbn : idxN t.length p ≤ t.length := idxN_le_of_lt_one t.length hp1
    have hne : p ≠ 1 := ne_of_lt hp1
    have hrec := ih p hb' hc' hbn
    simp only [insertGo, if_neg hne, List.flatten_cons, List.length_append,
      sliceL_length, List.length_cons, hgen, Nat.mul_succ]
    omega

theorem setCell_length (t : List (Row V)) (i : ℕ) (c : String) (v : V) :
    (setCell t i c v).length = t.length := by
  unfold setCell
  cases t[i]? <;> simp

theorem foldl_length_preserved {V : Type} {β : Type} (f : List (Row V) → β → List (Row V))
    (hf : ∀ df b, (f df b).length = df.length) :
    ∀ (l : List β) (df : List (Row V)), (l.foldl f df).length = df.length := by
  intro l
  induction l with
  | nil => intro df; rfl
  | cons x xs ih => intro df; rw [List.foldl_cons, ih, hf]

theorem update_rows_length [Inhabited V] (gen : ℕ → List (Row V)) (t : List (Row V))
    (ps : List ℚ) (cols : List String) (e : ℕ) :
    (update_rows gen t ps cols e).length = t.length := by
  unfold update_rows
  apply foldl_length_preserved
  intro df ip
  apply foldl_length_preserved
  intro df2 c
  apply foldl_length_preserved
  intro df3 j
  exact setCell_length _ _ _ _

/-- C2: row-count laws.  For a base table of N rows and a valid edit plan
(strictly increasing points in [0,1), non-overlapping index clusters,
e * k < N) and any nonnegative ratio: delete_rows has N - e * k rows,
insert_rows has N + e * k rows, append_rows has N + floor(ratio * N) rows,
and update_rows keeps exactly N rows. -/
theorem c2_row_count_laws [Inhabited V] (gen : ℕ → List (Row V)) (t : List (Row V))
    (ps : List ℚ) (e : ℕ) (ratio : ℚ) (cols : List String)
    (hplan : validPlan t.length ps e)
    (hgen : ∀ m, (gen m).length = m) (hratio : 0 ≤ ratio) :
    (delete_rows t ps e).length = t.length - e * ps.length ∧
    (insert_rows gen t ps e).length = t.length + e * ps.length ∧
    ((append_rows gen t ratio).length : ℤ) = t.length + ⌊ratio * (t.length : ℚ)⌋ ∧
    (update_rows gen t ps cols e).length = t.length := by
  obtain ⟨_, hb, hc, _⟩ := hplan
  rw [← idxN_zero t.length] at hc
  have h0 : idxN t.length 0 ≤ t.length := by rw [idxN_zero]; omega
  refine ⟨?_, ?_, ?_, update_rows_length gen t ps cols e⟩
  · have := deleteGo_len t e ps 0 hb hc h0
    rw [idxN_zero] at this
    unfold delete_rows
    omega
  · have := insertGo_len gen t e hgen ps 0 hb hc h0
    rw [idxN_zero] at this
    unfold insert_rows
    omega
  · unfold append_rows
    have hfl : 0 ≤ ⌊ratio * (t.length : ℚ)⌋ := by
      apply Int.floor_nonneg.mpr
      positivity
    simp [hgen, idxN, pyInt]
    omega

/-- C2 witness: the row-count laws instantiated on a concrete 100-row
table with edit points 1/4 and 3/4, edit size 5, ratio 1/10. -/
theorem c2_row_count_laws_witness :
    (delete_rows (List.replicate 100 ((fun _ => (0 : ℤ)) : Row ℤ)) [1/4, 3/4] 5).length = 90 ∧
    (insert_rows (fun m => List.replicate m ((fun _ => (1 : ℤ)) : Row ℤ))
      (List.replicate 100 ((fun _ => (0 : ℤ)) : Row ℤ)) [1/4, 3/4] 5).length = 110 ∧
    ((append_rows (fun m => List.replicate m ((fun _ => (1 : ℤ)) : Row ℤ))
      (List.replicate 100 ((fun _ => (0 : ℤ)) : Row ℤ)) (1/10)).length : ℤ) = 110 ∧
    (update_rows (fun m => List.replicate m ((fun _ => (1 : ℤ)) : Row ℤ))
      (List.replicate 100 ((fun _ => (0 : ℤ)) : Row ℤ)) [1/4, 3/4] ["a"] 5).length = 100 := by
  have h := c2_row_count_laws
    (fun m => List.replicate m ((fun _ => (1 : ℤ)) : Row ℤ))
    (List.replicate 100 ((fun _ => (0 : ℤ)) : Row ℤ)) [1/4, 3/4] 5 (1/10) ["a"]
    (by refine ⟨?_, ?_, ?_, ?_⟩ <;>
          norm_num [strictIncB, boundsB, chainB, idxN, pyInt])
    (fun m => List.length_replicate m _) (by norm_num)
  simp only [List.length_replicate, List.length_cons, List.length_nil] at h
  obtain ⟨h1, h2, h3, h4⟩ := h
  refine ⟨by rw [h1], by rw [h2], ?_, by rw [h4]⟩
  rw [h3]
  norm_num

/-- Predicate: index i lies in the dropped cluster [b - e, b) of some edit
point, with the boundary b computed as the code computes it,
b = int(p * n), i.e. the floor. -/
def droppedFloor (n e : ℕ) (ps : List ℚ) (i : ℕ) : Bool :=
  ps.any fun p => decide (idxN n p - e ≤ i) && decide (i < idxN n p)

/-- Deletion described independently of the code's loop, with the code's
floor boundaries: keep, in original order, exactly the rows whose index
lies in no cluster. -/
def specDeleteFloor (t : List α) (ps : List ℚ) (e : ℕ) : List α :=
  ((List.range t.length).filter fun i => !droppedFloor t.length e ps i).filterMap
    fun i => t[i]?

/-- Claim C8 verbatim: the boundary at round(p * n).  Modelled with the
Mathlib round (half toward plus infinity); the counterexample below
involves no tie, where every rounding convention, Python banker rounding
included, agrees. -/
def droppedRound (n e : ℕ) (ps : List ℚ) (i : ℕ) : Bool :=
  ps.any fun p =>
    decide ((round (p * (n : ℚ))).toNat - e ≤ i) &&
      decide (i < (round (p * (n : ℚ))).toNat)

/-- Deletion as claim C8 states it: partition at round(p * n), drop
edit_size rows immediately before each boundary, keep survivors in order. -/
def specDeleteRound (t : List α) (ps : List ℚ) (e : ℕ) : List α :=
  ((List.range t.length).filter fun i => !droppedRound t.length e ps i).filterMap
    fun i => t[i]?

theorem sliceL_cons_of_lt (t : List α) {a : ℕ} (h : a < t.length) (m : ℕ) :
    sliceL t a (m + 1) = t[a] :: sliceL t (a + 1) m := by
  unfold sliceL
  rw [List.drop_eq_getElem_cons h]
  rfl

theorem filterMap_range'_eq_sliceL (t : List α) :
    ∀ (m a : ℕ), a + m ≤ t.length →
      ((List.range' a m).filterMap fun i => t[i]?) = sliceL t a m := by
  intro m
  induction m with
  | zero => intro a _; simp [sliceL]
  | succ m ih =>
    intro a h
    have ha : a < t.length := by omega
    rw [List.range'_succ, List.filterMap_cons]
    simp only [List.getElem?_eq_getElem ha]
    rw [ih (a + 1) (by omega), sliceL_cons_of_lt t ha]

theorem chainB_le_all {n e : ℕ} :
    ∀ {ps : List ℚ} {a : ℕ}, chainB n e a ps = true →
      ∀ p ∈ ps, a + e ≤ idxN n p := by
  intro ps
  induction ps with
  | nil => simp
  | cons p ps ih =>
    intro a hc q hq
    obtain ⟨h1, h2⟩ := chainB_cons.mp hc
    rcases List.mem_cons.mp hq with h | h
    · subst h; exact h1
    · have := ih h2 q h
      omega

theorem droppedFloor_false_iff {n e i : ℕ} {ps : List ℚ} :
    droppedFloor n e ps i = false ↔
      ∀ q ∈ ps, ¬(idxN n q - e ≤ i ∧ i < idxN n q) := by
  simp [droppedFloor]

theorem deleteGo_eq_filterRange (t : List α) (e : ℕ) :
    ∀ (ps : List ℚ) (prev : ℚ),
      boundsB ps = true →
      chainB t.length e (idxN t.length prev) ps = true →
      idxN t.length prev ≤ t.length →
      (deleteGo t t.length e prev ps).flatten
        = ((List.range' (idxN t.length prev) (t.length - idxN t.length prev)).filter
            fun i => !droppedFloor t.length e ps i).filterMap fun i => t[i]? := by
  intro ps
  induction ps with
  | nil =>
    intro prev _ _ hle
    have hkeep : (List.range' (idxN t.length prev) (t.length - idxN t.length prev)).filter
        (fun i => !droppedFloor t.length e [] i)
        = List.range' (idxN t.length prev) (t.length - idxN t.length prev) :=
      List.filter_eq_self.mpr (fun i _ => by simp [droppedFloor])
    rw [hkeep, filterMap_range'_eq_sliceL t _ _ (by omega)]
    simp [deleteGo, idxN_one]
  | cons p ps ih =>
    intro prev hb hc hle
    obtain ⟨⟨hp0, hp1⟩, hb'⟩ := boundsB_cons.mp hb
    obtain ⟨hape, hc'⟩ := chainB_cons.mp hc
    have hbn : idxN t.length p ≤ t.length := idxN_le_of_lt_one t.length hp1
    have hne : p ≠ 1 := ne_of_lt hp1
    have hlater := chainB_le_all hc'
    set n := t.length with hn
    set a := idxN n prev with hadef
    set b := idxN n p with hbdef
    -- split the index range at the cluster [b - e, b)
    have h1 : List.range' (b - e) e ++ List.range' (b - e + e) (n - b)
        = List.range' (b - e) (n - b + e) := List.range'_append_1 _ _ _
    rw [show b - e + e = b by omega] at h1
    have h2 : List.range' a (b - e - a) ++ List.range' (a + (b - e - a)) (n - b + e)
        = List.range' a (n - b + e + (b - e - a)) := List.range'_append_1 _ _ _
    rw [show a + (b - e - a) = b - e by omega] at h2
    have hsplit : List.range' a (n - a)
        = List.range' a (b - e - a) ++ (List.range' (b - e) e ++ List.range' b (n - b)) := by
      rw [h1, h2, show n - b + e + (b - e - a) = n - a by omega]
    -- the three filtered pieces
    have k1 : (List.range' a (b - e - a)).filter
        (fun i => !droppedFloor n e (p :: ps) i) = List.range' a (b - e - a) := by
      apply List.filter_eq_self.mpr
      intro i hi
      rw [List.mem_range'_1] at hi
      have hib : i < b - e := by omega
      have : droppedFloor n e (p :: ps) i = false := by
        apply droppedFloor_false_iff.mpr
        intro q hq
        rcases List.mem_cons.mp hq with h | h
        · subst h; omega
        · have := hlater q h; omega
      simp [this]
    have k2 : (List.range' (b - e) e).filter
        (fun i => !droppedFloor n e (p :: ps) i) = [] := by
      apply List.filter_eq_nil_iff.mpr
      intro i hi
      rw [List.mem_range'_1] at hi
      have hdrop : droppedFloor n e (p :: ps) i = true := by
        simp only [droppedFloor, List.any_cons]
        have : (decide (idxN n p - e ≤ i) && decide (i < idxN n p)) = true := by
          rw [← hbdef]
          simp only [Bool.and_eq_true, decide_eq_true_eq]
          omega
        rw [this]
        simp
      simp [hdrop]
    have k3 : (List.range' b (n - b)).filter
        (fun i => !droppedFloor n e (p :: ps) i)
        = (List.range' b (n - b)).filter (fun i => !droppedFloor n e ps i) := by
      apply List.filter_congr
      intro i hi
      rw [List.mem_range'_1] at hi
      have : decide (i < idxN n p) = false := by
        rw [← hbdef]
        simp only [decide_eq_false_iff_not]
        omega
      simp only [droppedFloor, List.any_cons, this, Bool.and_false, Bool.false_or]
    have hrec := ih p hb' hc' hbn
    simp only [deleteGo, if_neg hne, List.flatten_cons]
    rw [hsplit, List.filter_append, List.filter_append, k1, k2, k3,
      List.nil_append, List.filterMap_append,
      filterMap_range'_eq_sliceL t _ _ (by omega), ← hrec]
    congr 1
    congr 1
    omega

/-- C8 amended: delete_rows partitions the table at the truncated absolute
indices int(point * len(table)) (floor, not round), drops edit_size rows
immediately before each such boundary, drops nothing at the implicit final
boundary 1, and the surviving rows appear in their original order. -/
theorem c8_delete_boundary_floor (t : List α) (ps : List ℚ) (e : ℕ)
    (hplan : validPlan t.length ps e) :
    delete_rows t ps e = specDeleteFloor t ps e := by
  obtain ⟨_, hb, hc, _⟩ := hplan
  rw [← idxN_zero t.length] at hc
  have h := deleteGo_eq_filterRange t e ps 0 hb hc (by rw [idxN_zero]; omega)
  rw [idxN_zero, Nat.sub_zero] at h
  unfold delete_rows specDeleteFloor
  rw [h, List.range_eq_range']

/-- C8 witness: the floor-boundary characterisation instantiated on the
10-row table with edit point 1/2 and edit size 2. -/
theorem c8_delete_boundary_floor_witness :
    delete_rows (List.range 10) [(1:ℚ)/2] 2 = specDeleteFloor (List.range 10) [(1:ℚ)/2] 2 := by
  apply c8_delete_boundary_floor
  simp only [List.length_range]
  refine ⟨rfl, ?_, ?_, by norm_num⟩
  · norm_num [boundsB]
  · norm_num [chainB, idxN, pyInt]

/-- C8 counterexample: with boundaries at round(p * n), as the claim
states them, the result differs from what the code computes; at
n = 10, p = 14/25 the code uses int(5.6) = 5 while the claim says
round(5.6) = 6. -/
theorem c8_claim_counterexample :
    delete_rows (List.range 10) [(14:ℚ)/25] 1
      ≠ specDeleteRound (List.range 10) [(14:ℚ)/25] 1 := by
  have hidx : idxN 10 ((14:ℚ)/25) = 5 := by
    norm_num [idxN, pyInt]
    rfl
  have hround : (round (((14:ℚ)/25) * ((10:ℕ):ℚ))).toNat = 6 := by
    rw [round_eq]
    norm_num
    rfl
  have hne : ((14:ℚ)/25) ≠ 1 := by norm_num
  have hL : delete_rows (List.range 10) [(14:ℚ)/25] 1 = [0, 1, 2, 3, 5, 6, 7, 8, 9] := by
    simp only [delete_rows, deleteGo, if_neg hne, List.length_range, idxN_zero,
      idxN_one, hidx]
    decide
  have hR : specDeleteRound (List.range 10) [(14:ℚ)/25] 1 = [0, 1, 2, 3, 4, 6, 7, 8, 9] := by
    simp only [specDeleteRound, droppedRound, List.length_range, List.any_cons,
      List.any_nil, hround]
    decide
  rw [hL, hR]
  decide

/-- Number of row positions at which two tables differ in column c. -/
def countDiffCol [DecidableEq V] [Inhabited V] (c : String) (t u : List (Row V)) : ℕ :=
  (List.range t.length).countP fun j => decide (getCell t j c ≠ getCell u j c)

theorem setCell_getElem?_ne (t : List (Row V)) (i : ℕ) (c : String) (v : V)
    {j : ℕ} (hj : i ≠ j) : (setCell t i c v)[j]? = t[j]? := by
  unfold setCell
  cases t[i]? with
  | none => rfl
  | some r => exact List.getElem?_set_ne hj

theorem foldl_setCell_getElem? {β : Type} (g : β → V) (i : ℕ) (c : String) :
    ∀ (l : List β) (df : List (Row V)) {j : ℕ}, i ≠ j →
      (l.foldl (fun d b => setCell d i c (g b)) df)[j]? = df[j]? := by
  intro l
  induction l with
  | nil => intro df j _; rfl
  | cons x xs ih =>
    intro df j hj
    rw [List.foldl_cons, ih _ hj, setCell_getElem?_ne _ _ _ _ hj]

theorem getCell_congr_of_getElem? [Inhabited V] {t u : List (Row V)} {j : ℕ}
    (h : t[j]? = u[j]?) (c : String) : getCell t j c = getCell u j c := by
  unfold getCell
  rw [h]

/-- C3 evaluated on the code: in the scenario of the claim (schema a int,
1000 rows, edit point 0.5, edit size 10, column a) the written row index
int(0.5 * 1000) = 500 does not depend on the inner loop counter j, so
update_rows changes at most ONE value of column a, never the ten values
the claim requires. -/
theorem c3_update_changes_at_most_one_cell [DecidableEq V] [Inhabited V]
    (gen : ℕ → List (Row V)) (t : List (Row V)) (ht : t.length = 1000) :
    countDiffCol "a" t (update_rows gen t [(1:ℚ)/2] ["a"] 10) ≤ 1 := by
  have hidx : idxN 1000 ((1:ℚ)/2) = 500 := by
    norm_num [idxN, pyInt]
    rfl
  have hu : update_rows gen t [(1:ℚ)/2] ["a"] 10
      = (List.range 10).foldl
          (fun df j => setCell df 500 "a"
            (getCell (gen (1 * 10)) (0 * 10 + j) "a")) t := by
    simp only [update_rows, List.enum, List.enumFrom, List.foldl_cons, List.foldl_nil,
      List.length_cons, List.length_nil, ht, hidx]
  have hloc : ∀ j : ℕ, j ≠ 500 →
      (update_rows gen t [(1:ℚ)/2] ["a"] 10)[j]? = t[j]? := by
    intro j hj
    rw [hu]
    exact foldl_setCell_getElem? _ 500 "a" (List.range 10) t (fun h => hj h.symm)
  unfold countDiffCol
  calc (List.range t.length).countP
        (fun j => decide (getCell t j "a" ≠ getCell (update_rows gen t [(1:ℚ)/2] ["a"] 10) j "a"))
      ≤ (List.range t.length).countP (fun j => j == 500) := by
        apply List.countP_mono_left
        intro j _ hdiff
        simp only [decide_eq_true_eq] at hdiff
        simp only [beq_iff_eq]
        by_contra hne
        exact hdiff (getCell_congr_of_getElem? ((hloc j hne).symm) "a")
    _ = List.count 500 (List.range t.length) := by
        simp [List.count]
    _ ≤ 1 := List.nodup_iff_count_le_one.mp (List.nodup_range _) 500

/-- C3 witness: the at-most-one-changed-cell bound instantiated on a
concrete 1000-row single-column table. -/
theorem c3_update_changes_at_most_one_cell_witness :
    countDiffCol "a" (List.replicate 1000 ((fun _ => (0 : ℤ)) : Row ℤ))
      (update_rows (fun m => List.replicate m ((fun _ => (1 : ℤ)) : Row ℤ))
        (List.replicate 1000 ((fun _ => (0 : ℤ)) : Row ℤ)) [(1:ℚ)/2] ["a"] 10) ≤ 1 :=
  c3_update_changes_at_most_one_cell _ _ (List.length_replicate 1000 _)

/-- Column data types dispatched on by FakeDataGenerator.generate_data
(int, float, str, largestr, bool, list, nested dict). -/
inductive DType
  | int
  | float
  | str
  | largestr
  | bool
  | list (elem : DType)
  | struct (fields : List (String × DType))

/-- Generated cell values.  A float cell carries the raw stream draw (the
uniform transform and 3-decimal rounding are a fixed deterministic
function of that draw). -/
inductive Value
  | int (z : ℤ)
  | float (z : ℤ)
  | str (s : String)
  | bool (b : Bool)
  | list (vs : List Value)
  | struct (fs : List (String × Value))

/-- Generator stream state: position in the process-global numpy random
stream and position in the Faker text stream.  FakeDataGenerator seeds
only the Faker stream (self.fake.random.seed(seed)); every np.random.*
call in generate_data reads the global numpy stream, which the
constructor seed never touches. -/
structure GenState where
  npPos : ℕ
  fkPos : ℕ

/-- Consecutive draws from the global numpy stream. -/
def npDraws (np : ℕ → ℤ) (pos m : ℕ) : List ℤ :=
  (List.range m).map fun i => np (pos + i)

/-- Slicing of a flat generated value list into per-row sublists by the
drawn lengths (the np.cumsum offsets of the source). -/
def chunkBy : List ℕ → List Value → List Value
  | [], _ => []
  | l :: ls, vs => .list (vs.take l) :: chunkBy ls (vs.drop l)

/-- Fields of a struct row (used to rebuild rows when recursing over the
fields of a dict dtype). -/
def fieldsOf : Value → List (String × Value)
  | .struct fs => fs
  | _ => []

/-- FakeDataGenerator.generate_data from src/de/synthetic.py.  np is the
global numpy stream, fkText the seeded Faker text stream (arguments: the
constructor seed, the stream position, the drawn max_nb_chars).  Int,
float and bool cells and all length draws come from np and advance
npPos; only text generation consults the seed-keyed Faker stream.  A dict
dtype generates one column per field in order and zips the columns into
rows (Python zip of no columns yields no rows). -/
def generate_data (np : ℕ → ℤ) (fkText : ℤ → ℕ → ℕ → String) (seed : ℤ) :
    DType → ℕ → GenState → List Value × GenState
  | .int, m, s =>
      ((npDraws np s.npPos m).map .int, ⟨s.npPos + m, s.fkPos⟩)
  | .float, m, s =>
      ((npDraws np s.npPos m).map .float, ⟨s.npPos + m, s.fkPos⟩)
  | .bool, m, s =>
      ((npDraws np s.npPos m).map (fun z => .bool (decide (z % 2 = 0))),
        ⟨s.npPos + m, s.fkPos⟩)
  | .str, m, s =>
      let numChars := (npDraws np s.npPos m).map fun z => 10 + z.toNat % 190
      ((List.range m).map (fun i =>
          .str (fkText seed (s.fkPos + i) ((numChars[i]?).getD 10))),
        ⟨s.npPos + m, s.fkPos + m⟩)
  | .largestr, m, s =>
      let numChars := (npDraws np s.npPos m).map fun z => 100 + z.toNat % 900
      ((List.range m).map (fun i =>
          .str (fkText seed (s.fkPos + i) ((numChars[i]?).getD 100))),
        ⟨s.npPos + m, s.fkPos + m⟩)
  | .list t, m, s =>
      let lens := (npDraws np s.npPos m).map fun z => z.toNat % 5
      let res := generate_data np fkText seed t lens.sum ⟨s.npPos + m, s.fkPos⟩
      (chunkBy lens res.1, res.2)
  | .struct [], _, s => ([], s)
  | .struct [(nm, dt)], m, s =>
      let res := generate_data np fkText seed dt m s
      (res.1.map (fun v => .struct [(nm, v)]), res.2)
  | .struct ((nm, dt) :: f2 :: rest), m, s =>
      let res := generate_data np fkText seed dt m s
      let res2 := generate_data np fkText seed (.struct (f2 :: rest)) m res.2
      (List.zipWith (fun v r => .struct ((nm, v) :: fieldsOf r)) res.1 res2.1, res2.2)

/-- FakeDataGenerator.generate_table: generate_data on the schema dict
followed by the row-preserving pa.Table.from_struct_array conversion. -/
def generate_table (np : ℕ → ℤ) (fkText : ℤ → ℕ → ℕ → String) (seed : ℤ)
    (schema : List (String × DType)) (num_rows : ℕ) (s : GenState) :
    List Value × GenState :=
  generate_data np fkText seed (.struct schema) num_rows s

/-- C1 on the code: the constructor seed never flows into the values of an
integer schema (it seeds only the Faker text stream), so two
FakeDataGenerator instances with different seeds produce value-identical
tables for the non-degenerate one-int-column schema; and two same-seed
instances created in sequence in one process continue the advanced global
numpy stream, so the second table differs from the first (shown on the
identity stream). -/
theorem c1_seed_not_used_for_int_schema :
    (∀ (np : ℕ → ℤ) (fkText : ℤ → ℕ → ℕ → String) (seed1 seed2 : ℤ)
        (n : ℕ) (s : GenState),
      generate_table np fkText seed1 [("a", DType.int)] n s
        = generate_table np fkText seed2 [("a", DType.int)] n s) ∧
    (generate_table (fun i => (i : ℤ)) (fun _ _ _ => "") 42 [("a", DType.int)] 1
        ⟨0, 0⟩).1
      ≠ (generate_table (fun i => (i : ℤ)) (fun _ _ _ => "") 42 [("a", DType.int)] 1
          ((generate_table (fun i => (i : ℤ)) (fun _ _ _ => "") 42
            [("a", DType.int)] 1 ⟨0, 0⟩).2)).1 := by
  constructor
  · intro np fkText seed1 seed2 n s
    simp [generate_table, generate_data]
  · simp [generate_table, generate_data, npDraws]

/-- C10: the empty edit plan is an identity for both delete_rows and
insert_rows: the single pair (0, 1) keeps the whole table and inserts
nothing. -/
theorem c10_empty_plan_identity (t : List α) (gen : ℕ → List α) (e : ℕ) :
    delete_rows t [] e = t ∧ insert_rows gen t [] e = t := by
  constructor <;>
    simp [delete_rows, insert_rows, deleteGo, insertGo, idxN_zero, idxN_one,
      sliceL_zero_full]

/-! Model of src/de/formats.py. -/

/-- CdcParams from src/de/formats.py. -/
structure CdcParams where
  min_chunk_size : ℕ
  max_chunk_size : ℕ
  norm_level : ℤ
deriving DecidableEq

/-- Value of a use_cdc field: a plain bool or an explicit CdcParams. -/
inductive UseCdc
  | bool (b : Bool)
  | params (p : CdcParams)
deriving DecidableEq

/-- Python truthiness of use_cdc as tested by the paramstem properties
(a CdcParams instance is a truthy object, a bool is its own truth value). -/
def UseCdc.truthy : UseCdc → Bool
  | .bool b => b
  | .params _ => true

/-- str.join with separator "-" over the collected parameter tokens. -/
def joinDash : List String → String
  | [] => ""
  | [s] => s
  | s :: rest => s ++ "-" ++ joinDash rest

/-- Stem computed by FileFormat.derive_path: name-paramstem when the
paramstem is nonempty (Python string truthiness), else the bare name. -/
def stemOf (paramstem name : String) : String :=
  if paramstem = "" then name else name ++ "-" ++ paramstem

/-- FileFormat.derive_path from src/de/formats.py as a function of the
format's paramstem and suffix: directory / stem.suffix. -/
def FileFormat.derive_path (paramstem suffix name directory : String) : String :=
  directory ++ "/" ++ stemOf paramstem name ++ "." ++ suffix

/-- ParquetCpp format configuration (frozen dataclass, compared and hashed
by its full field tuple). -/
structure ParquetCpp where
  use_cdc : UseCdc
  compression : Option String := none
  use_dictionary : Bool := true
  data_page_size : Option ℕ := none
  row_group_size : Option ℕ := none
deriving DecidableEq

/-- ParquetCpp.paramstem: dash-join of the compression token (when set)
and the cdc marker (when use_cdc is truthy).  The fields use_dictionary,
data_page_size and row_group_size contribute no token. -/
def ParquetCpp.paramstem (f : ParquetCpp) : String :=
  joinDash ((match f.compression with
    | some c => [c]
    | none => []) ++ (if f.use_cdc.truthy then ["cdc"] else []))

/-- ParquetCpp.derive_path (inherited from FileFormat). -/
def ParquetCpp.derive_path (f : ParquetCpp) (name directory : String) : String :=
  FileFormat.derive_path f.paramstem "parquet" name directory

/-- ParquetRs format configuration. -/
structure ParquetRs where
  use_cdc : UseCdc
  compression : Option String := none
deriving DecidableEq

/-- ParquetRs.paramstem (same token rule as ParquetCpp). -/
def ParquetRs.paramstem (f : ParquetRs) : String :=
  joinDash ((match f.compression with
    | some c => [c]
    | none => []) ++ (if f.use_cdc.truthy then ["cdc"] else []))

/-- ParquetRs.derive_path (inherited from FileFormat). -/
def ParquetRs.derive_path (f : ParquetRs) (name directory : String) : String :=
  FileFormat.derive_path f.paramstem "parquet" name directory

/-- Errors raised by the format writers and the sanity checks. -/
inductive Err
  | valueError
  | sanityCheckError
  | writeError
deriving DecidableEq

/-- ParquetRs.write from src/de/formats.py: raises ValueError before
deriving the path or writing anything when use_cdc holds explicit
CdcParams; otherwise rewrites to the derived destination.  The returned
list collects the artifacts written to the output directory. -/
def ParquetRs.write (f : ParquetRs) (name directory : String) :
    Except Err (String × List String) :=
  match f.use_cdc with
  | .params _ => .error .valueError
  | .bool _ =>
      .ok (ParquetRs.derive_path f name directory, [ParquetRs.derive_path f name directory])

/-- C6: ParquetRs.write fails fast with ValueError exactly when use_cdc is
an explicit CdcParams value, writing nothing, and otherwise (use_cdc a
plain bool) proceeds and writes the derived path. -/
theorem c6_parquet_rs_rejects_cdc_params (f : ParquetRs) (name directory : String) :
    (ParquetRs.write f name directory = .error Err.valueError ↔
      ∃ p, f.use_cdc = UseCdc.params p) ∧
    (ParquetRs.write f name directory = .error Err.valueError ∨
      ParquetRs.write f name directory
        = .ok (ParquetRs.derive_path f name directory,
            [ParquetRs.derive_path f name directory])) := by
  cases h : f.use_cdc <;> simp [ParquetRs.write, h]

theorem str_len_pos {s : String} (h : s ≠ "") : 0 < s.length := by
  cases s with
  | mk data =>
    cases data with
    | nil => exact absurd rfl h
    | cons a l => simp [String.length]

theorem str_ne_of_len_ne {s t : String} (h : s.length ≠ t.length) : s ≠ t :=
  fun he => h (he ▸ rfl)

theorem str_append_left_cancel {a s t : String} (h : a ++ s = a ++ t) : s = t := by
  have hd := congrArg String.data h
  simp only [String.data_append] at hd
  exact String.ext (List.append_cancel_left hd)

theorem str_append_right_cancel {a s t : String} (h : s ++ a = t ++ a) : s = t := by
  have hd := congrArg String.data h
  simp only [String.data_append] at hd
  exact String.ext (List.append_cancel_right hd)

theorem stemOf_inj {dir sfx s1 s2 name1 name2 : String}
    (h : FileFormat.derive_path s1 sfx name1 dir = FileFormat.derive_path s2 sfx name2 dir) :
    stemOf s1 name1 = stemOf s2 name2 := by
  unfold FileFormat.derive_path at h
  have h1 := str_append_right_cancel h
  have h2 := str_append_right_cancel h1
  exact str_append_left_cancel h2

theorem stemOf_length (ps name : String) :
    (stemOf ps name).length
      = if ps = "" then name.length else name.length + 1 + ps.length := by
  unfold stemOf
  split
  · rfl
  · have hdash : ("-" : String).length = 1 := rfl
    simp [String.length_append, hdash]

/-- Paramstem as a function of the compression option and cdc truthiness
(the only inputs ParquetCpp.paramstem reads). -/
def psOf (co : Option String) (t : Bool) : String :=
  joinDash ((match co with
    | some c => [c]
    | none => []) ++ (if t then ["cdc"] else []))

theorem paramstem_eq_psOf (f : ParquetCpp) :
    f.paramstem = psOf f.compression f.use_cdc.truthy := rfl

theorem psOf_none_false : psOf none false = "" := rfl

theorem psOf_none_true : psOf none true = "cdc" := rfl

theorem psOf_some_false (c : String) : psOf (some c) false = c := rfl

theorem psOf_some_true (c : String) : psOf (some c) true = c ++ "-" ++ "cdc" := rfl

theorem append_cdc_length (c : String) : (c ++ "-" ++ "cdc").length = c.length + 4 := by
  have h1 : ("-" : String).length = 1 := rfl
  have h2 : ("cdc" : String).length = 3 := rfl
  simp [String.length_append, h1, h2]

theorem append_cdc_ne_empty (c : String) : c ++ "-" ++ "cdc" ≠ "" := by
  apply str_ne_of_len_ne
  have h0 : ("" : String).length = 0 := rfl
  rw [append_cdc_length, h0]
  omega

/-- C7 counterexample: two ParquetCpp configurations that differ (only) in
use_dictionary derive the same path, because paramstem encodes just the
compression token and the cdc marker. -/
theorem c7_claim_counterexample :
    ParquetCpp.derive_path
        { use_cdc := UseCdc.bool false, use_dictionary := true } "t" "d"
      = ParquetCpp.derive_path
        { use_cdc := UseCdc.bool false, use_dictionary := false } "t" "d" ∧
    ({ use_cdc := UseCdc.bool false, use_dictionary := true } : ParquetCpp)
      ≠ { use_cdc := UseCdc.bool false, use_dictionary := false } := by
  refine ⟨rfl, ?_⟩
  intro h
  have := congrArg ParquetCpp.use_dictionary h
  simp at this

theorem cdc_ne_empty : ("cdc" : String) ≠ "" := by
  apply str_ne_of_len_ne
  decide

theorem cdc_length : ("cdc" : String).length = 3 := rfl

theorem stem_ne_truthy_diff (name : String) (co : Option String) :
    stemOf (psOf co true) name ≠ stemOf (psOf co false) name := by
  cases co with
  | none =>
    apply str_ne_of_len_ne
    rw [psOf_none_true, psOf_none_false, stemOf_length, stemOf_length,
      if_neg cdc_ne_empty, if_pos rfl, cdc_length]
    omega
  | some c =>
    apply str_ne_of_len_ne
    rw [psOf_some_true, psOf_some_false, stemOf_length, stemOf_length,
      if_neg (append_cdc_ne_empty c), append_cdc_length]
    by_cases hce : c = ""
    · rw [if_pos hce]
      omega
    · rw [if_neg hce]
      omega

theorem stem_ne_comp_diff (name : String) (t : Bool) (co1 co2 : Option String)
    (h1 : ∀ s, co1 = some s → s ≠ "") (h2 : ∀ s, co2 = some s → s ≠ "")
    (hne : co1 ≠ co2) :
    stemOf (psOf co1 t) name ≠ stemOf (psOf co2 t) name := by
  cases co1 with
  | none =>
    cases co2 with
    | none => exact absurd rfl hne
    | some c =>
      have hc : c ≠ "" := h2 c rfl
      have hcl : 0 < c.length := str_len_pos hc
      cases t
      · apply str_ne_of_len_ne
        rw [psOf_none_false, psOf_some_false, stemOf_length, stemOf_length,
          if_pos rfl, if_neg hc]
        omega
      · apply str_ne_of_len_ne
        rw [psOf_none_true, psOf_some_true, stemOf_length, stemOf_length,
          if_neg cdc_ne_empty, if_neg (append_cdc_ne_empty c), cdc_length,
          append_cdc_length]
        omega
  | some c1 =>
    cases co2 with
    | none =>
      have hc : c1 ≠ "" := h1 c1 rfl
      have hcl : 0 < c1.length := str_len_pos hc
      cases t
      · apply str_ne_of_len_ne
        rw [psOf_some_false, psOf_none_false, stemOf_length, stemOf_length,
          if_neg hc, if_pos rfl]
        omega
      · apply str_ne_of_len_ne
        rw [psOf_some_true, psOf_none_true, stemOf_length, stemOf_length,
          if_neg (append_cdc_ne_empty c1), if_neg cdc_ne_empty, cdc_length,
          append_cdc_length]
        omega
    | some c2 =>
      have hc1 : c1 ≠ "" := h1 c1 rfl
      have hc2 : c2 ≠ "" := h2 c2 rfl
      have hcc : c1 ≠ c2 := fun h => hne (by rw [h])
      cases t
      · intro h
        rw [psOf_some_false, psOf_some_false] at h
        unfold stemOf at h
        rw [if_neg hc1, if_neg hc2] at h
        exact hcc (str_append_left_cancel h)
      · intro h
        rw [psOf_some_true, psOf_some_true] at h
        unfold stemOf at h
        rw [if_neg (append_cdc_ne_empty c1), if_neg (append_cdc_ne_empty c2)] at h
        have h' := str_append_left_cancel h
        exact hcc (str_append_right_cancel (str_append_right_cancel h'))

/-- C7 amended: derive_path is deterministic in the configuration and the
name, and two ParquetCpp configurations with well-formed compressions
(none or a nonempty codec) derive distinct paths when they differ in the
truthiness of use_cdc (same compression) or in the compression (same cdc
truthiness); parameters use_dictionary, data_page_size and row_group_size
never influence the path (see the counterexample). -/
theorem c7_derive_path_deterministic_partial_distinct
    (name directory : String) (f1 f2 : ParquetCpp)
    (hclean1 : ∀ s, f1.compression = some s → s ≠ "")
    (hclean2 : ∀ s, f2.compression = some s → s ≠ "") :
    ParquetCpp.derive_path f1 name directory = ParquetCpp.derive_path f1 name directory ∧
    (f1.compression = f2.compression ∧ f1.use_cdc.truthy ≠ f2.use_cdc.truthy →
      ParquetCpp.derive_path f1 name directory ≠ ParquetCpp.derive_path f2 name directory) ∧
    (f1.use_cdc.truthy = f2.use_cdc.truthy ∧ f1.compression ≠ f2.compression →
      ParquetCpp.derive_path f1 name directory ≠ ParquetCpp.derive_path f2 name directory) := by
  refine ⟨rfl, ?_, ?_⟩
  · rintro ⟨hcomp, htr⟩ hpath
    unfold ParquetCpp.derive_path at hpath
    have hstem := stemOf_inj hpath
    rw [paramstem_eq_psOf, paramstem_eq_psOf, hcomp] at hstem
    cases ht1 : f1.use_cdc.truthy <;> cases ht2 : f2.use_cdc.truthy <;>
      rw [ht1, ht2] at hstem htr
    · exact htr rfl
    · exact stem_ne_truthy_diff name f2.compression hstem.symm
    · exact stem_ne_truthy_diff name f2.compression hstem
    · exact htr rfl
  · rintro ⟨htr, hcomp⟩ hpath
    unfold ParquetCpp.derive_path at hpath
    have hstem := stemOf_inj hpath
    rw [paramstem_eq_psOf, paramstem_eq_psOf, htr] at hstem
    exact stem_ne_comp_diff name f2.use_cdc.truthy f1.compression f2.compression
      hclean1 hclean2 hcomp hstem

/-- C7 witness: the amended distinctness applied to concrete
configurations: cdc on/off with the same codec, and zstd against snappy
with cdc off. -/
theorem c7_derive_path_witness :
    ParquetCpp.derive_path
        { use_cdc := UseCdc.bool true, compression := some "zstd" } "data" "dir"
      ≠ ParquetCpp.derive_path
        { use_cdc := UseCdc.bool false, compression := some "zstd" } "data" "dir" ∧
    ParquetCpp.derive_path
        { use_cdc := UseCdc.bool false, compression := some "zstd" } "data" "dir"
      ≠ ParquetCpp.derive_path
        { use_cdc := UseCdc.bool false, compression := some "snappy" } "data" "dir" := by
  constructor
  · exact (c7_derive_path_deterministic_partial_distinct "data" "dir" _ _
      (fun s h => by
        have hs : s = "zstd" := (Option.some.inj h).symm
        subst hs; decide)
      (fun s h => by
        have hs : s = "zstd" := (Option.some.inj h).symm
        subst hs; decide)).2.1 ⟨rfl, by decide⟩
  · exact (c7_derive_path_deterministic_partial_distinct "data" "dir" _ _
      (fun s h => by
        have hs : s = "zstd" := (Option.some.inj h).symm
        subst hs; decide)
      (fun s h => by
        have hs : s = "snappy" := (Option.some.inj h).symm
        subst hs; decide)).2.2 ⟨rfl, by decide⟩

/-- Parquet file metadata as compared by the path-mode sanity check
(number of rows and the arrow schema, the latter abstracted as a value of
an arbitrary type with decidable equality). -/
structure PqMeta (σ : Type) where
  numRows : ℕ
  schema : σ
deriving DecidableEq

/-- ParquetCpp.write in path mode (src is an existing parquet file): the
code rewrites batch by batch to the derived destination, and when
sanity_check is set compares source and destination parquet metadata:
the row counts and arrow schemas must agree exactly; a mismatch fails
(the SanityCheckError of the spec taxonomy), a match returns the derived
path with the artifact kept.  srcMeta is the source metadata, destMeta
the metadata re-read from the artifact the writer produced. -/
def ParquetCpp.writeFromFile {σ : Type} [DecidableEq σ] (f : ParquetCpp)
    (name directory : String) (srcMeta destMeta : PqMeta σ)
    (sanity_check : Bool) : Except Err String :=
  if sanity_check then
    if srcMeta.numRows = destMeta.numRows then
      if srcMeta.schema = destMeta.schema then
        .ok (ParquetCpp.derive_path f name directory)
      else .error .sanityCheckError
    else .error .sanityCheckError
  else .ok (ParquetCpp.derive_path f name directory)

/-- ParquetCpp.write in table mode: write the table, then when
sanity_check is set assert full readback equality
src.equals(pq.read_table(dest)).  readBack is the table re-read from the
written artifact. -/
def ParquetCpp.writeFromTable {τ : Type} [DecidableEq τ] (f : ParquetCpp)
    (name directory : String) (src readBack : τ) (sanity_check : Bool) :
    Except Err String :=
  if sanity_check then
    if src = readBack then .ok (ParquetCpp.derive_path f name directory)
    else .error .sanityCheckError
  else .ok (ParquetCpp.derive_path f name directory)

/-- JsonLines format configuration. -/
structure JsonLines where
  compression : Option String := none
deriving DecidableEq

/-- JsonLines.paramstem: self.compression or the empty string. -/
def JsonLines.paramstem (f : JsonLines) : String := f.compression.getD ""

/-- JsonLines.derive_path (inherited from FileFormat). -/
def JsonLines.derive_path (f : JsonLines) (name directory : String) : String :=
  FileFormat.derive_path f.paramstem "jsonlines" name directory

/-- JsonLines.write from src/de/formats.py: converts the table to json
lines at the derived path and returns it.  It swallows arbitrary keyword
arguments (the pipeline passes sanity_check) and performs no re-read and
no check at all; srcMeta and reRead model the source metadata and what a
re-read of the artifact would yield, and are deliberately unused exactly
as the code never consults them. -/
def JsonLines.write {σ : Type} (f : JsonLines) (name directory : String)
    (srcMeta reRead : PqMeta σ) (sanity_check : Bool) : Except Err String :=
  .ok (JsonLines.derive_path f name directory)

/-- C9 counterexample: the claim quantifies over every format policy, but
JsonLines.write with sanity_check enabled succeeds even when the re-read
row count disagrees with the source, so a write does not fail iff the
re-read mismatches. -/
theorem c9_claim_counterexample :
    JsonLines.write (σ := ℕ) { compression := none } "t" "d" ⟨3, 0⟩ ⟨2, 0⟩ true
      = .ok (JsonLines.derive_path { compression := none } "t" "d") ∧
    (⟨3, 0⟩ : PqMeta ℕ).numRows ≠ (⟨2, 0⟩ : PqMeta ℕ).numRows :=
  ⟨rfl, by decide⟩

/-- C9 amended: only ParquetCpp.write performs the post-write check.  In
path mode with sanity_check on it fails with SanityCheckError exactly when
the re-read row count or schema differs from the source, and returns the
derived path exactly on a match (artifact kept); in table mode it fails
exactly when the full readback differs from the source table; JsonLines
ignores sanity_check and always returns its derived path unchecked. -/
theorem c9_sanity_check_parquet_cpp_only {σ τ : Type} [DecidableEq σ] [DecidableEq τ]
    (f : ParquetCpp) (fj : JsonLines) (name directory : String)
    (srcMeta destMeta : PqMeta σ) (src readBack : τ) :
    (ParquetCpp.writeFromFile f name directory srcMeta destMeta true
        = .error Err.sanityCheckError
      ↔ ¬(srcMeta.numRows = destMeta.numRows ∧ srcMeta.schema = destMeta.schema)) ∧
    (ParquetCpp.writeFromFile f name directory srcMeta destMeta true
        = .ok (ParquetCpp.derive_path f name directory)
      ↔ (srcMeta.numRows = destMeta.numRows ∧ srcMeta.schema = destMeta.schema)) ∧
    (ParquetCpp.writeFromTable f name directory src readBack true
        = .error Err.sanityCheckError ↔ src ≠ readBack) ∧
    (∀ (sanity_check : Bool) (m1 m2 : PqMeta σ),
      JsonLines.write fj name directory m1 m2 sanity_check
        = .ok (JsonLines.derive_path fj name directory)) := by
  refine ⟨?_, ?_, ?_, fun _ _ _ => rfl⟩
  · unfold ParquetCpp.writeFromFile
    by_cases h1 : srcMeta.numRows = destMeta.numRows <;>
      by_cases h2 : srcMeta.schema = destMeta.schema <;>
        simp [h1, h2]
  · unfold ParquetCpp.writeFromFile
    by_cases h1 : srcMeta.numRows = destMeta.numRows <;>
      by_cases h2 : srcMeta.schema = destMeta.schema <;>
        simp [h1, h2]
  · unfold ParquetCpp.writeFromTable
    by_cases h : src = readBack <;> simp [h]

/-! Model of src/de/estimate.py.  The estimators estimate (de.core) and
estimate_xet are opaque external collaborators (the compiled extension
module is not under src/); they are passed as the parameters estDe and
estXet.  Modelled from the spec: estDe paths returns (total_len,
chunk_bytes, compressed_chunk_bytes), the sum of raw artifact sizes and
the unique-chunk byte counts; estXet paths returns the transmitted-byte
count of the external tool. -/

/-- Record returned by the estimate function of src/de/estimate.py:
the two estimator outputs merged with numfiles = len(paths) and the
derived ratios chunk_bytes / total_len and xet_bytes / total_len. -/
structure EstRecord where
  numfiles : ℕ
  total_len : ℕ
  chunk_bytes : ℕ
  compressed_chunk_bytes : ℕ
  dedup_ratio : ℚ
  xet_bytes : ℕ
  xet_dedup_ratio : ℚ

/-- The estimate function of src/de/estimate.py. -/
def estimate (estDe : List String → ℕ × ℕ × ℕ) (estXet : List String → ℕ)
    (paths : List String) : EstRecord :=
  { numfiles := paths.length
    total_len := (estDe paths).1
    chunk_bytes := (estDe paths).2.1
    compressed_chunk_bytes := (estDe paths).2.2
    dedup_ratio := ((estDe paths).2.1 : ℚ) / ((estDe paths).1 : ℚ)
    xet_bytes := estXet paths
    xet_dedup_ratio := ((estXet paths : ℕ) : ℚ) / ((estDe paths).1 : ℚ) }

/-- The EstimationResult dataclass of src/de/estimate.py, parameterized by
the format type F. -/
structure EstimationResult (F : Type) where
  format : F
  numfiles : ℕ
  total_len : ℕ
  chunk_bytes : ℕ
  compressed_chunk_bytes : ℕ
  dedup_ratio : ℚ
  xet_bytes : ℕ
  xet_dedup_ratio : ℚ
  group : String

/-- Output directory for one (variant, format) pair:
directory / table_name / fmt.name. -/
def destDir (directory tableName formatName : String) : String :=
  directory ++ "/" ++ tableName ++ "/" ++ formatName

/-- Write tasks submitted by compare_formats_tables in submission order
(variants outer, formats middle, entries inner), keyed by
(variant name, format).  writeFn models fmt.write(name, value, prefix
directory, sanity_check=...) and returns the written path or the task's
exception; S is the type of entry values (a table or a path). -/
def futuresList {F S : Type} (fmtName : F → String)
    (writeFn : F → String → S → String → Except Err String)
    (formats : List F) (tables : List (String × List (String × S)))
    (directory : String) : List ((String × F) × Except Err String) :=
  tables.flatMap fun tv =>
    formats.flatMap fun fmt =>
      tv.2.map fun ev =>
        ((tv.1, fmt), writeFn fmt ev.1 ev.2 (destDir directory tv.1 (fmtName fmt)))

/-- Appending one resolved path to its bucket: the defaultdict(list)
groups[(table_name, fmt)].append(path), with buckets kept in first-touch
key order exactly as a Python dict iterates. -/
def addToGroup {K : Type} [DecidableEq K] :
    List (K × List String) → K → String → List (K × List String)
  | [], k, p => [(k, [p])]
  | g :: rest, k, p =>
      if g.1 = k then (g.1, g.2 ++ [p]) :: rest else g :: addToGroup rest k p

/-- The collection loop of compare_formats_tables: iterate the futures
(modelled in submission order; bucket contents and every record field are
independent of completion order), appending each result to its bucket;
future.result() re-raises the first failed task's exception, which
propagates out of the function. -/
def collectGroups {K : Type} [DecidableEq K] :
    List (K × Except Err String) → List (K × List String) →
    Except Err (List (K × List String))
  | [], acc => .ok acc
  | (_, .error e) :: _, _ => .error e
  | (k, .ok p) :: rest, acc => collectGroups rest (addToGroup acc k p)

/-- compare_formats_tables from src/de/estimate.py: submit one write per
(variant, format, entry), bucket the resulting paths by (variant, format),
estimate each bucket and build one EstimationResult per bucket. -/
def compare_formats_tables {F S : Type} [DecidableEq F]
    (estDe : List String → ℕ × ℕ × ℕ) (estXet : List String → ℕ)
    (fmtName : F → String)
    (writeFn : F → String → S → String → Except Err String)
    (formats : List F) (tables : List (String × List (String × S)))
    (directory : String) : Except Err (List (EstimationResult F)) :=
  (collectGroups (futuresList fmtName writeFn formats tables directory) []).map
    fun groups => groups.map fun g =>
      let r := estimate estDe estXet g.2
      { format := g.1.2
        numfiles := r.numfiles
        total_len := r.total_len
        chunk_bytes := r.chunk_bytes
        compressed_chunk_bytes := r.compressed_chunk_bytes
        dedup_ratio := r.dedup_ratio
        xet_bytes := r.xet_bytes
        xet_dedup_ratio := r.xet_dedup_ratio
        group := g.1.1 }

theorem addToGroup_fresh {K : Type} [DecidableEq K] (k : K) (p : String) :
    ∀ (gs : List (K × List String)), (∀ g ∈ gs, g.1 ≠ k) →
      addToGroup gs k p = gs ++ [(k, [p])] := by
  intro gs
  induction gs with
  | nil => intro _; rfl
  | cons g rest ih =>
    intro h
    have hg : g.1 ≠ k := h g (List.mem_cons_self g rest)
    simp only [addToGroup, if_neg hg, List.cons_append]
    exact congrArg (g :: .) (ih (fun g' hg' => h g' (List.mem_cons_of_mem g hg')))

theorem addToGroup_last {K : Type} [DecidableEq K] (k : K) (p : String) (ps : List String) :
    ∀ (gs : List (K × List String)), (∀ g ∈ gs, g.1 ≠ k) →
      addToGroup (gs ++ [(k, ps)]) k p = gs ++ [(k, ps ++ [p])] := by
  intro gs
  induction gs with
  | nil => simp [addToGroup]
  | cons g rest ih =>
    intro h
    have hg : g.1 ≠ k := h g (List.mem_cons_self g rest)
    simp only [List.cons_append, addToGroup, if_neg hg]
    exact congrArg (g :: .) (ih (fun g' hg' => h g' (List.mem_cons_of_mem g hg')))

theorem collectGroups_chunk {K : Type} [DecidableEq K] (k : K) :
    ∀ (ws : List (Except Err String)) (rest : List (K × Except Err String))
      (acc : List (K × List String)) (ps : List String),
      (∀ w ∈ ws, ∃ p, w = .ok p) → (∀ g ∈ acc, g.1 ≠ k) →
      collectGroups ((ws.map fun w => (k, w)) ++ rest) (acc ++ [(k, ps)])
        = collectGroups rest (acc ++ [(k, ps ++ ws.filterMap Except.toOption)]) := by
  intro ws
  induction ws with
  | nil => intro rest acc ps _ _; simp
  | cons w ws ih =>
    intro rest acc ps hok hfresh
    obtain ⟨p, rfl⟩ := hok w (List.mem_cons_self w ws)
    simp only [List.map_cons, List.cons_append, collectGroups, List.append_eq]
    rw [addToGroup_last k p ps acc hfresh,
      ih rest acc (ps ++ [p]) (fun w' hw' => hok w' (List.mem_cons_of_mem _ hw')) hfresh]
    have hbucket : (ps ++ [p]) ++ ws.filterMap Except.toOption
        = ps ++ List.filterMap Except.toOption (Except.ok p :: ws) := by
      simp [List.filterMap_cons, Except.toOption]
    rw [hbucket]

theorem collectGroups_chunk_start {K : Type} [DecidableEq K] (k : K)
    (ws : List (Except Err String)) (rest : List (K × Except Err String))
    (acc : List (K × List String))
    (hne : ws ≠ []) (hok : ∀ w ∈ ws, ∃ p, w = .ok p)
    (hfresh : ∀ g ∈ acc, g.1 ≠ k) :
    collectGroups ((ws.map fun w => (k, w)) ++ rest) acc
      = collectGroups rest (acc ++ [(k, ws.filterMap Except.toOption)]) := by
  cases ws with
  | nil => exact absurd rfl hne
  | cons w ws =>
    obtain ⟨p, rfl⟩ := hok w (List.mem_cons_self w ws)
    simp only [List.map_cons, List.cons_append, collectGroups, List.append_eq]
    rw [addToGroup_fresh k p acc hfresh,
      collectGroups_chunk k ws rest acc [p]
        (fun w' hw' => hok w' (List.mem_cons_of_mem _ hw')) hfresh]
    have hbucket : ([p] : List String) ++ ws.filterMap Except.toOption
        = List.filterMap Except.toOption (Except.ok p :: ws) := by
      simp [List.filterMap_cons, Except.toOption]
    rw [hbucket]

theorem collectGroups_variant {F S : Type} [DecidableEq F]
    (fmtName : F → String) (writeFn : F → String → S → String → Except Err String)
    (directory : String) (tn : String) (entries : List (String × S))
    (hne : entries ≠ []) :
    ∀ (fmts : List F) (rest : List ((String × F) × Except Err String))
      (acc : List ((String × F) × List String)),
      fmts.Nodup →
      (∀ f ∈ fmts, ∀ ev ∈ entries, ∃ p,
        writeFn f ev.1 ev.2 (destDir directory tn (fmtName f)) = .ok p) →
      (∀ g ∈ acc, ∀ f ∈ fmts, g.1 ≠ (tn, f)) →
      collectGroups
        ((fmts.flatMap fun fmt => entries.map fun ev =>
            ((tn, fmt), writeFn fmt ev.1 ev.2 (destDir directory tn (fmtName fmt)))) ++ rest)
        acc
      = collectGroups rest
          (acc ++ fmts.map fun fmt =>
            ((tn, fmt), entries.filterMap fun ev =>
              (writeFn fmt ev.1 ev.2 (destDir directory tn (fmtName fmt))).toOption)) := by
  intro fmts
  induction fmts with
  | nil => intro rest acc _ _ _; simp
  | cons f fmts ih =>
    intro rest acc hnd hok hfresh
    have hmap : (entries.map fun ev =>
          ((tn, f), writeFn f ev.1 ev.2 (destDir directory tn (fmtName f))))
        = ((entries.map fun ev => writeFn f ev.1 ev.2 (destDir directory tn (fmtName f))).map
            fun w => ((tn, f), w)) := by
      simp [List.map_map, Function.comp]
    have hwne : (entries.map fun ev =>
        writeFn f ev.1 ev.2 (destDir directory tn (fmtName f))) ≠ [] := by
      simp [hne]
    have hwok : ∀ w ∈ (entries.map fun ev =>
        writeFn f ev.1 ev.2 (destDir directory tn (fmtName f))), ∃ p, w = .ok p := by
      intro w hw
      obtain ⟨ev, hev, rfl⟩ := List.mem_map.mp hw
      exact hok f (List.mem_cons_self f fmts) ev hev
    have hkfresh : ∀ g ∈ acc, g.1 ≠ (tn, f) :=
      fun g hg => hfresh g hg f (List.mem_cons_self f fmts)
    simp only [List.flatMap_cons, List.append_assoc]
    rw [hmap, collectGroups_chunk_start (tn, f) _ _ acc hwne hwok hkfresh]
    have hbfilter : (entries.map fun ev =>
          writeFn f ev.1 ev.2 (destDir directory tn (fmtName f))).filterMap Except.toOption
        = entries.filterMap fun ev =>
            (writeFn f ev.1 ev.2 (destDir directory tn (fmtName f))).toOption := by
      rw [List.filterMap_map]
      congr 1
    rw [hbfilter]
    rw [ih rest
      (acc ++ [((tn, f), entries.filterMap fun ev =>
        (writeFn f ev.1 ev.2 (destDir directory tn (fmtName f))).toOption)])
      (List.Nodup.of_cons hnd)
      (fun f' hf' => hok f' (List.mem_cons_of_mem f hf'))
      ?_]
    · simp
    · intro g hg f' hf'
      rcases List.mem_append.mp hg with hga | hgb
      · exact hfresh g hga f' (List.mem_cons_of_mem f hf')
      · have hgk : g = ((tn, f), entries.filterMap fun ev =>
            (writeFn f ev.1 ev.2 (destDir directory tn (fmtName f))).toOption) := by
          simpa using hgb
        rw [hgk]
        intro hcontra
        have : f = f' := by
          have := congrArg Prod.snd hcontra
          simpa using this
        rw [this] at hnd
        exact (List.nodup_cons.mp hnd).1 hf'

theorem collectGroups_tables {F S : Type} [DecidableEq F]
    (fmtName : F → String) (writeFn : F → String → S → String → Except Err String)
    (directory : String) (formats : List F) (hfmts : formats.Nodup) :
    ∀ (tbls : List (String × List (String × S))) (acc : List ((String × F) × List String)),
      (tbls.map Prod.fst).Nodup →
      (∀ tv ∈ tbls, tv.2 ≠ []) →
      (∀ tv ∈ tbls, ∀ f ∈ formats, ∀ ev ∈ tv.2,
        ∃ p, writeFn f ev.1 ev.2 (destDir directory tv.1 (fmtName f)) = .ok p) →
      (∀ g ∈ acc, ∀ tv ∈ tbls, ∀ f : F, g.1 ≠ (tv.1, f)) →
      collectGroups (futuresList fmtName writeFn formats tbls directory) acc
        = .ok (acc ++ tbls.flatMap fun tv => formats.map fun fmt =>
            ((tv.1, fmt), tv.2.filterMap fun ev =>
              (writeFn fmt ev.1 ev.2 (destDir directory tv.1 (fmtName fmt))).toOption)) := by
  intro tbls
  induction tbls with
  | nil =>
    intro acc _ _ _ _
    simp [futuresList, collectGroups]
  | cons tv tbls ih =>
    intro acc hnd hne hok hfresh
    have hsplit : futuresList fmtName writeFn formats (tv :: tbls) directory
        = (formats.flatMap fun fmt => tv.2.map fun ev =>
            ((tv.1, fmt), writeFn fmt ev.1 ev.2 (destDir directory tv.1 (fmtName fmt))))
          ++ futuresList fmtName writeFn formats tbls directory := rfl
    rw [hsplit,
      collectGroups_variant fmtName writeFn directory tv.1 tv.2
        (hne tv (List.mem_cons_self tv tbls)) formats _ acc hfmts
        (fun f hf ev hev => hok tv (List.mem_cons_self tv tbls) f hf ev hev)
        (fun g hg f _ => hfresh g hg tv (List.mem_cons_self tv tbls) f)]
    rw [ih _ (by simpa using (List.nodup_cons.mp (by simpa using hnd)).2)
      (fun tv' h => hne tv' (List.mem_cons_of_mem tv h))
      (fun tv' h => hok tv' (List.mem_cons_of_mem tv h))
      ?_]
    · simp
    · intro g hg tv' htv' f
      rcases List.mem_append.mp hg with hga | hgb
      · exact hfresh g hga tv' (List.mem_cons_of_mem tv htv') f
      · obtain ⟨fmt, _, rfl⟩ := List.mem_map.mp hgb
        intro hcontra
        have hteq : tv.1 = tv'.1 := by
          have := congrArg Prod.fst hcontra
          simpa using this
        have hmem : tv'.1 ∈ tbls.map Prod.fst := List.mem_map_of_mem Prod.fst htv'
        have hnotin : tv.1 ∉ tbls.map Prod.fst := by
          have hcons : (tv.1 :: tbls.map Prod.fst).Nodup := by simpa using hnd
          exact (List.nodup_cons.mp hcons).1
        rw [hteq] at hnotin
        exact hnotin hmem

/-- C4 counterexample: one failing write task makes compare_formats_tables
raise that task's error; no result list is produced, in particular the
sibling (variant, format) bucket whose write succeeded yields no record,
and the error is not collected into any report. -/
theorem c4_claim_counterexample :
    compare_formats_tables (F := Bool) (S := Unit)
      (fun _ => (1, 1, 1)) (fun _ => 1) (fun _ => "fmt")
      (fun f _ _ _ => if f then .ok "p" else .error Err.writeError)
      [true, false] [("v", [("original", ())])] "d"
      = .error Err.writeError := rfl

theorem collectGroups_error_of_mem {K : Type} [DecidableEq K] :
    ∀ (l : List (K × Except Err String)) (acc : List (K × List String)),
      (∃ kv ∈ l, ∃ e, kv.2 = .error e) →
      ∃ e, collectGroups l acc = .error e := by
  intro l
  induction l with
  | nil =>
    intro acc h
    obtain ⟨kv, hkv, _⟩ := h
    exact absurd hkv (List.not_mem_nil kv)
  | cons kv l ih =>
    intro acc h
    obtain ⟨k, r⟩ := kv
    cases r with
    | error e => exact ⟨e, rfl⟩
    | ok p =>
      obtain ⟨kv', hkv', e', he'⟩ := h
      rcases List.mem_cons.mp hkv' with rfl | hmem
      · exact absurd he' (by simp)
      · exact ih (addToGroup acc k p) ⟨kv', hmem, e', he'⟩

/-- C4 amended: compare_formats_tables does not isolate write failures:
whenever any submitted write task fails, the collection loop re-raises
that error and the whole call aborts with it, producing no result records
at all (sibling buckets included) and no collected failure report. -/
theorem c4_write_failure_aborts_everything {F S : Type} [DecidableEq F]
    (estDe : List String → ℕ × ℕ × ℕ) (estXet : List String → ℕ)
    (fmtName : F → String) (writeFn : F → String → S → String → Except Err String)
    (formats : List F) (tables : List (String × List (String × S))) (directory : String)
    (hfail : ∃ kv ∈ futuresList fmtName writeFn formats tables directory,
      ∃ e, kv.2 = .error e) :
    ∃ e, compare_formats_tables estDe estXet fmtName writeFn formats tables directory
      = .error e := by
  obtain ⟨e, he⟩ := collectGroups_error_of_mem
    (futuresList fmtName writeFn formats tables directory) [] hfail
  refine ⟨e, ?_⟩
  unfold compare_formats_tables
  rw [he]
  rfl

/-- C4 witness: the abort theorem applied to the concrete two-format
pipeline in which exactly one write task fails. -/
theorem c4_write_failure_aborts_everything_witness :
    ∃ e, compare_formats_tables (F := Bool) (S := Unit)
      (fun _ => (1, 1, 1)) (fun _ => 1) (fun _ => "fmt")
      (fun f _ _ _ => if f then .ok "p2" else .error Err.writeError)
      [true, false] [("v", [("original", ())])] "d2"
      = .error e := by
  apply c4_write_failure_aborts_everything
  refine ⟨(("v", false), .error Err.writeError), ?_, Err.writeError, rfl⟩
  have hfut : futuresList (F := Bool) (S := Unit) (fun _ => "fmt")
      (fun f _ _ _ => if f then .ok "p2" else .error Err.writeError)
      [true, false] [("v", [("original", ())])] "d2"
      = [(("v", true), .ok "p2"), (("v", false), .error Err.writeError)] := rfl
  rw [hfut]
  simp

theorem sum_map_const_length {A : Type} (l : List A) (m : ℕ) :
    (l.map fun _ => m).sum = l.length * m := by
  induction l with
  | nil => simp
  | cons x xs ih => simp [ih, Nat.succ_mul, Nat.add_comm]

theorem filterMap_length_of_all_some {A B : Type} (f : A → Option B) :
    ∀ (l : List A), (∀ x ∈ l, ∃ y, f x = some y) → (l.filterMap f).length = l.length := by
  intro l
  induction l with
  | nil => intro _; rfl
  | cons x xs ih =>
    intro h
    obtain ⟨y, hy⟩ := h x (List.mem_cons_self x xs)
    rw [List.filterMap_cons]
    rw [hy]
    simp only [List.length_cons]
    rw [ih (fun x' hx' => h x' (List.mem_cons_of_mem x hx'))]

/-- C5 counterexample: the record count is the number of distinct
(variant, format) dictionary keys, not m * v; a format list containing the
same (frozen, value-compared) format twice merges into one bucket, so two
formats and one variant with all writes succeeding yield one record, not
two. -/
theorem c5_claim_counterexample :
    ∃ rs, compare_formats_tables (F := Unit) (S := Unit)
        (fun _ => (2, 1, 1)) (fun _ => 1) (fun _ => "fmt")
        (fun _ _ _ _ => Except.ok "p")
        [(), ()] [("v", [("original", ())])] "d"
        = .ok rs
      ∧ rs.length ≠ ([(), ()] : List Unit).length
          * ([("v", [("original", ())])] : List (String × List (String × Unit))).length :=
  ⟨_, rfl, by decide⟩

/-- C5 amended: for pairwise-distinct formats, variants with pairwise
distinct names and nonempty entry maps, writes that all succeed, and
estimators honouring the spec contract (positive total and unique-chunk
bytes on a nonempty path set), compare_formats_tables returns exactly
m * v records, one per (variant, format) pair in order, each with
dedup_ratio = chunk_bytes / total_len, 0 < dedup_ratio, and numfiles equal
to the number of entries of its variant. -/
theorem c5_pipeline_completeness {F S : Type} [DecidableEq F]
    (estDe : List String → ℕ × ℕ × ℕ) (estXet : List String → ℕ)
    (fmtName : F → String) (writeFn : F → String → S → String → Except Err String)
    (formats : List F) (tables : List (String × List (String × S))) (directory : String)
    (hfmts : formats.Nodup) (htns : (tables.map Prod.fst).Nodup)
    (hne : ∀ tv ∈ tables, tv.2 ≠ [])
    (hok : ∀ tv ∈ tables, ∀ f ∈ formats, ∀ ev ∈ tv.2,
      ∃ p, writeFn f ev.1 ev.2 (destDir directory tv.1 (fmtName f)) = .ok p)
    (hest : ∀ paths : List String, paths ≠ [] →
      0 < (estDe paths).1 ∧ 0 < (estDe paths).2.1) :
    ∃ rs, compare_formats_tables estDe estXet fmtName writeFn formats tables directory
        = .ok rs
      ∧ rs.length = tables.length * formats.length
      ∧ rs.map (fun r => (r.group, r.format))
          = tables.flatMap (fun tv => formats.map fun fmt => (tv.1, fmt))
      ∧ ∀ r ∈ rs, r.dedup_ratio = (r.chunk_bytes : ℚ) / (r.total_len : ℚ)
          ∧ 0 < r.dedup_ratio
          ∧ ∃ tv ∈ tables, r.group = tv.1 ∧ r.numfiles = tv.2.length := by
  have hcol := collectGroups_tables fmtName writeFn directory formats hfmts tables []
    htns hne hok (by simp)
  have hbucket_len : ∀ tv ∈ tables, ∀ fmt ∈ formats,
      (tv.2.filterMap fun ev =>
        (writeFn fmt ev.1 ev.2 (destDir directory tv.1 (fmtName fmt))).toOption).length
      = tv.2.length := by
    intro tv htv fmt hfmt
    apply filterMap_length_of_all_some
    intro ev hev
    obtain ⟨p, hp⟩ := hok tv htv fmt hfmt ev hev
    exact ⟨p, by rw [hp]; rfl⟩
  refine ⟨(tables.flatMap fun tv => formats.map fun fmt =>
      ((tv.1, fmt), tv.2.filterMap fun ev =>
        (writeFn fmt ev.1 ev.2 (destDir directory tv.1 (fmtName fmt))).toOption)).map
      (fun g =>
        { format := g.1.2
          numfiles := (estimate estDe estXet g.2).numfiles
          total_len := (estimate estDe estXet g.2).total_len
          chunk_bytes := (estimate estDe estXet g.2).chunk_bytes
          compressed_chunk_bytes := (estimate estDe estXet g.2).compressed_chunk_bytes
          dedup_ratio := (estimate estDe estXet g.2).dedup_ratio
          xet_bytes := (estimate estDe estXet g.2).xet_bytes
          xet_dedup_ratio := (estimate estDe estXet g.2).xet_dedup_ratio
          group := g.1.1 }), ?_, ?_, ?_, ?_⟩
  · unfold compare_formats_tables
    rw [hcol]
    rfl
  · simp only [List.length_map, List.length_flatMap]
    have : (tables.map (List.length ∘ fun tv =>
        formats.map fun fmt => ((tv.1, fmt), tv.2.filterMap fun ev =>
          (writeFn fmt ev.1 ev.2 (destDir directory tv.1 (fmtName fmt))).toOption)))
        = tables.map fun _ => formats.length := by
      apply List.map_congr_left
      intro tv _
      simp
    rw [this, sum_map_const_length]
  · simp only [List.map_flatMap, List.map_map]
    rfl
  · intro r hr
    obtain ⟨g, hg, rfl⟩ := List.mem_map.mp hr
    obtain ⟨tv, htv, hgin⟩ := List.mem_flatMap.mp hg
    obtain ⟨fmt, hfmt, rfl⟩ := List.mem_map.mp hgin
    have hblen := hbucket_len tv htv fmt hfmt
    have hbne : (tv.2.filterMap fun ev =>
        (writeFn fmt ev.1 ev.2 (destDir directory tv.1 (fmtName fmt))).toOption) ≠ [] := by
      intro hnil
      have := hne tv htv
      rw [hnil] at hblen
      simp only [List.length_nil] at hblen
      exact this (List.eq_nil_of_length_eq_zero hblen.symm)
    obtain ⟨htot, hchunk⟩ := hest _ hbne
    refine ⟨rfl, ?_, tv, htv, rfl, ?_⟩
    · show (0 : ℚ) < _
      apply div_pos
      · exact_mod_cast hchunk
      · exact_mod_cast htot
    · exact hblen

/-- C5 witness: the completeness theorem applied to two distinct formats
and one variant of one entry, with all writes succeeding and a positive
estimator, yielding exactly 2 = m * v records. -/
theorem c5_pipeline_completeness_witness :
    ∃ rs, compare_formats_tables (F := Bool) (S := Unit)
        (fun _ => (2, 1, 1)) (fun _ => 1) (fun _ => "fmt")
        (fun _ _ _ _ => Except.ok "p")
        [true, false] [("v", [("o", ())])] "d"
        = .ok rs
      ∧ rs.length = 2 := by
  obtain ⟨rs, h1, h2, _, _⟩ := c5_pipeline_completeness
    (F := Bool) (S := Unit)
    (fun _ => (2, 1, 1)) (fun _ => 1) (fun _ => "fmt")
    (fun _ _ _ _ => Except.ok "p")
    [true, false] [("v", [("o", ())])] "d"
    (by decide)
    (by simp)
    (by intro tv htv; simp only [List.mem_singleton] at htv; subst htv; simp)
    (by intro tv _ f _ ev _; exact ⟨"p", rfl⟩)
    (by intro paths _; exact ⟨by norm_num, by norm_num⟩)
  exact ⟨rs, h1, by rw [h2]; rfl⟩

end DE
